import Mathlib

/-!
Verification of the blame-tracker analysis core against its specification.

The development shallowly embeds the Python modules
`blame_tracker/models/__init__.py`, `blame_tracker/core/git_analyzer.py`,
`blame_tracker/core/blame_intersector.py` and
`blame_tracker/core/cobertura_parser.py`.  Python `int` is modelled as `Int`,
Python `set[int]` as `Finset Int`, Python `dict` (where only lookup matters)
as a function into `Option`, Python `float` (used only for a sign test) as
`Rat`.  Line-by-line loops become folds or structural recursions.
-/

namespace BlameTracker

/-- models.LineStatus: coverage status of a line (COVERED / UNCOVERED / PARTIAL). -/
inductive LineStatus where
  | covered
  | uncovered
  | partialCov
deriving DecidableEq, Repr

/-- models.LineInfo: information about a single line in coverage data.
In the source, `__eq__` and `__hash__` are overridden to use `line_number`
alone; the structural fields are kept here and the positional equality is
`LineInfo.pyEq` below. -/
structure LineInfo where
  line_number : Int
  status : LineStatus
  hits : Int
deriving DecidableEq, Repr

/-- models.LineInfo.__eq__: equality by `line_number` alone. -/
def LineInfo.pyEq (a b : LineInfo) : Bool :=
  a.line_number == b.line_number

/-- models.FileCoverage: coverage information for a single file. -/
structure FileCoverage where
  file_path : String
  lines : List LineInfo
deriving DecidableEq, Repr

/-- models.FileCoverage.get_uncovered_lines: the set comprehension
`{line.line_number for line in self.lines if line.status == UNCOVERED}`. -/
def FileCoverage.get_uncovered_lines (fc : FileCoverage) : Finset Int :=
  ((fc.lines.filter (fun l => l.status == LineStatus.uncovered)).map
    (fun l => l.line_number)).toFinset

/-- models.FileCoverage.get_covered_lines: the set comprehension
`{line.line_number for line in self.lines if line.status == COVERED}`. -/
def FileCoverage.get_covered_lines (fc : FileCoverage) : Finset Int :=
  ((fc.lines.filter (fun l => l.status == LineStatus.covered)).map
    (fun l => l.line_number)).toFinset

/-- All line numbers recorded in a FileCoverage (the numbers of `self.lines`). -/
def FileCoverage.all_line_numbers (fc : FileCoverage) : Finset Int :=
  (fc.lines.map (fun l => l.line_number)).toFinset

/-- models.GitChange: information about a git change.  The dataclass
declares `__hash__` by `file_path` but does not declare `__eq__`, so the
dataclass-generated structural equality over all fields remains in force
(`GitChange.pyEq` below). -/
structure GitChange where
  file_path : String
  line_numbers : Finset Int
  author : String
  commit_hash : String
  commit_date : String
  commit_message : String
deriving DecidableEq

/-- The dataclass-generated `__eq__` of models.GitChange: field-by-field
structural comparison (the class overrides only `__hash__`, so `eq=True`
keeps the generated comparison of the full field tuple). -/
def GitChange.pyEq (a b : GitChange) : Bool :=
  a.file_path == b.file_path
    && decide (a.line_numbers = b.line_numbers)
    && a.author == b.author
    && a.commit_hash == b.commit_hash
    && a.commit_date == b.commit_date
    && a.commit_message == b.commit_message

/-- models.GitChange.__hash__: `hash(self.file_path)`, parameterized by the
interpreter's string-hash function `h`. -/
def GitChange.pyHash (h : String → Int) (c : GitChange) : Int :=
  h c.file_path

/-! ### git_analyzer._parse_unified_diff -/

/-- Python `str.startswith(p)`: Python strings are character sequences, so
the check is character-wise. -/
def pyStartsWith (s p : String) : Bool :=
  p.toList.isPrefixOf s.toList

/-- Python `str.split(sep)` for a single-character separator, character-wise
(`"".split(c)` is `[""]`, a trailing separator yields a trailing empty
field). -/
def pySplitChar (sep : Char) : List Char → List (List Char)
  | [] => [[]]
  | c :: cs =>
    if c = sep then [] :: pySplitChar sep cs
    else
      match pySplitChar sep cs with
      | [] => [[c]]
      | h :: t => (c :: h) :: t

/-- Python `diff_text.split("\n")`. -/
def pySplitNewline (s : String) : List String :=
  (pySplitChar '\n' s.toList).map String.mk

/-- Value of an ASCII digit run, as Python int() computes it on a matched
`\d+` group. -/
def digitsToNat (ds : List Char) : Nat :=
  ds.foldl (fun n c => 10 * n + (c.toNat - 48)) 0

/-- Match an expected literal prefix character by character, returning the
remaining characters on success (a regex literal such as `@@ -`). -/
def stripChars : List Char → List Char → Option (List Char)
  | [], rest => some rest
  | _ :: _, [] => none
  | p :: ps, c :: cs => if c = p then stripChars ps cs else none

/-- Match `\d+` greedily (the following regex characters are never digits, so
greedy matching without backtracking is exact), returning the value and the
rest. -/
def takeDigits1 (cs : List Char) : Option (Nat × List Char) :=
  let ds := cs.takeWhile (fun c => c.isDigit)
  if ds.isEmpty then none
  else some (digitsToNat ds, cs.dropWhile (fun c => c.isDigit))

/-- Match the optional group `(?:,\d+)?`.  When a comma is present the digits
are mandatory: on `,` followed by a non-digit the group cannot match, and
skipping it cannot help since the regex then requires a space where the comma
stands. -/
def skipOptCommaDigits (cs : List Char) : Option (List Char) :=
  match cs with
  | ',' :: cs2 =>
    match takeDigits1 cs2 with
    | some p => some p.2
    | none => none
  | _ => some cs

/-- git_analyzer: `re.match(r"@@ -\d+(?:,\d+)? \+(\d+)(?:,(\d+))? @@", line)`
followed by `int(match.group(1))`.  `re.match` anchors at the start only, so
any trailing characters after the final `@@` are accepted.  Returns the
post-image start line of the hunk. -/
def matchHunkHeader (line : String) : Option Int := do
  let cs0 ← stripChars "@@ -".toList line.toList
  let p1 ← takeDigits1 cs0
  let cs1 ← skipOptCommaDigits p1.2
  let cs2 ← stripChars " +".toList cs1
  let p2 ← takeDigits1 cs2
  let cs3 ← skipOptCommaDigits p2.2
  let _ ← stripChars " @@".toList cs3
  pure (Int.ofNat p2.1)

/-- The mutable state of the `_parse_unified_diff` loop.  `changes_by_file`
is the Python dict keyed by `current_file` (which is `None` until the first
`+++` header), modelled as a lookup function. -/
structure DiffState where
  current_file : Option String
  current_line_num : Int
  changes_by_file : Option String → Option (Finset Int)

/-- Python dict item assignment `d[k] = v` on an Option-keyed dict, for
lookup purposes. -/
def updMap (m : Option String → Option (Finset Int)) (k : Option String)
    (v : Finset Int) : Option String → Option (Finset Int) :=
  fun x => if x = k then some v else m x

/-- One iteration of the `for line in lines` loop of `_parse_unified_diff`.
`none` models the KeyError raised by `changes_by_file[current_file].add`
when a `+` body line arrives before any hunk header registered the current
file (the surrounding try/except then stops the loop). -/
def diffStep (st : DiffState) (line : String) : Option DiffState :=
  if pyStartsWith line "+++" then
    some { st with current_file := some (line.drop 6) }
  else
    match matchHunkHeader line with
    | some c =>
      some { st with
        current_line_num := c,
        changes_by_file :=
          match st.changes_by_file st.current_file with
          | none => updMap st.changes_by_file st.current_file ∅
          | some _ => st.changes_by_file }
    | none =>
      match st.current_file with
      | none => some st
      | some _ =>
        if pyStartsWith line "+" && !(pyStartsWith line "+++") then
          match st.changes_by_file st.current_file with
          | none => none
          | some s =>
            some { st with
              changes_by_file :=
                updMap st.changes_by_file st.current_file
                  (insert st.current_line_num s),
              current_line_num := st.current_line_num + 1 }
        else if pyStartsWith line "-" then some st
        else if pyStartsWith line "\\" then some st
        else some { st with current_line_num := st.current_line_num + 1 }

/-- The loop of `_parse_unified_diff`; an exception aborts the loop and the
dict built so far is returned. -/
def parseDiffLoop : DiffState → List String → DiffState
  | st, [] => st
  | st, l :: ls =>
    match diffStep st l with
    | none => st
    | some st2 => parseDiffLoop st2 ls

/-- Initial state of `_parse_unified_diff`: no current file, counter 0,
empty dict. -/
def initDiffState : DiffState :=
  { current_file := none, current_line_num := 0, changes_by_file := fun _ => none }

/-- git_analyzer._parse_unified_diff on an already split line list. -/
def parseUnifiedDiffLines (lines : List String) :
    Option String → Option (Finset Int) :=
  (parseDiffLoop initDiffState lines).changes_by_file

/-- git_analyzer._parse_unified_diff: `diff_text.split("\n")` then the line
loop. -/
def parseUnifiedDiff (diff_text : String) :
    Option String → Option (Finset Int) :=
  parseUnifiedDiffLines (pySplitNewline diff_text)

/-! ### blame_intersector -/

/-- models.BlameLineGroup: a group of consecutive lines with blame
information. -/
structure BlameLineGroup where
  start_line : Int
  end_line : Int
  context_before : List String
  culprit_lines : List String
  context_after : List String
  git_changes : List GitChange
  language : String
deriving DecidableEq

/-- models.BlameResult: result of blame analysis for a file. -/
structure BlameResult where
  file_path : String
  total_uncovered_lines : Nat
  uncovered_in_changes : Nat
  blame_groups : List BlameLineGroup
deriving DecidableEq

/-- models.BlameResult.culprit_percentage, with Python float modelled as a
rational: 0 when there are no uncovered lines, else
`uncovered_in_changes / total_uncovered_lines * 100`. -/
def BlameResult.culprit_percentage (r : BlameResult) : Rat :=
  if r.total_uncovered_lines = 0 then 0
  else ((r.uncovered_in_changes : Rat) / (r.total_uncovered_lines : Rat)) * 100

/-- BlameIntersector.CONTEXT_LINES. -/
def CONTEXT_LINES : Int := 5

/-- Python `str.rstrip("\n\r")`: drop trailing newline and carriage-return
characters. -/
def rstripNewlines (s : String) : String :=
  String.mk ((s.toList.reverse.dropWhile (fun c => c = '\n' || c = '\r')).reverse)

/-- BlameIntersector._get_line_safe: 1-based line read, empty string when out
of bounds, with the trailing newline stripped. -/
def getLineSafe (file_lines : List String) (line_num : Int) : String :=
  if 1 ≤ line_num ∧ line_num ≤ (file_lines.length : Int) then
    rstripNewlines (file_lines.getD (line_num - 1).toNat "")
  else ""

/-- Python `range(a, b)` over integers, as the list `a, a+1, ..., b-1`. -/
def intRange (a b : Int) : List Int :=
  (List.range (b - a).toNat).map (fun (i : Nat) => a + (i : Int))

/-- Python suffix extraction `Path(file_path).suffix`: on the final path
component `name`, the slice from the last dot when that dot is neither the
first nor the last character, else the empty string. -/
def pathSuffix (file_path : String) : String :=
  let name := ((file_path.splitOn "/").getLastD "")
  let cs := name.toList
  let i := (cs.length - 1) - ((cs.reverse.takeWhile (fun c => c ≠ '.')).length)
  if cs.contains '.' && decide (0 < i) && decide (i < cs.length - 1) then
    String.mk (cs.drop i)
  else ""

/-- BlameIntersector._detect_language: the static extension table, applied to
the lower-cased suffix; unknown extensions map to "text". -/
def detectLanguage (file_path : String) : String :=
  let ext := (pathSuffix file_path).toLower
  if ext = ".py" then "python"
  else if ext = ".js" then "javascript"
  else if ext = ".ts" then "typescript"
  else if ext = ".tsx" then "typescript"
  else if ext = ".jsx" then "javascript"
  else if ext = ".cpp" then "cpp"
  else if ext = ".cc" then "cpp"
  else if ext = ".cxx" then "cpp"
  else if ext = ".h" then "cpp"
  else if ext = ".hpp" then "cpp"
  else if ext = ".cs" then "csharp"
  else if ext = ".php" then "php"
  else if ext = ".rs" then "rust"
  else if ext = ".go" then "go"
  else if ext = ".java" then "java"
  else if ext = ".c" then "c"
  else if ext = ".swift" then "swift"
  else if ext = ".kt" then "kotlin"
  else if ext = ".rb" then "ruby"
  else if ext = ".sh" then "bash"
  else if ext = ".bash" then "bash"
  else "text"

/-- The `for line_num in range(context_start, context_end + 1)` loop of
`_create_single_group`: appends each read line to the before / culprit /
after bucket by comparison with `start_line` and `end_line`. -/
def bucketStep (start_line end_line : Int) (file_lines : List String)
    (acc : List String × List String × List String) (line_num : Int) :
    List String × List String × List String :=
  if line_num < start_line then
    (acc.1 ++ [getLineSafe file_lines line_num], acc.2.1, acc.2.2)
  else if line_num ≤ end_line then
    (acc.1, acc.2.1 ++ [getLineSafe file_lines line_num], acc.2.2)
  else
    (acc.1, acc.2.1, acc.2.2 ++ [getLineSafe file_lines line_num])

/-- See `bucketStep`: the whole context loop. -/
def groupBuckets (start_line end_line : Int) (file_lines : List String)
    (idxs : List Int) : List String × List String × List String :=
  idxs.foldl (bucketStep start_line end_line file_lines) ([], [], [])

/-- BlameIntersector._create_single_group.  The source raises ValueError on
an empty `culprit_lines`; both call sites pass a non-empty list, and the
head/last defaults below are never used under that precondition. -/
def createSingleGroup (culprit_lines : List Int) (file_lines : List String)
    (change : GitChange) (file_path : String) : BlameLineGroup :=
  let start_line := culprit_lines.headD 0
  let end_line := culprit_lines.getLastD 0
  let context_start := max 1 (start_line - CONTEXT_LINES)
  let context_end := min (file_lines.length : Int) (end_line + CONTEXT_LINES)
  let buckets := groupBuckets start_line end_line file_lines
    (intRange context_start (context_end + 1))
  { start_line := start_line
    end_line := end_line
    context_before := buckets.1
    culprit_lines := buckets.2.1
    context_after := buckets.2.2
    git_changes := [change]
    language := detectLanguage file_path }

/-- The `for line_num in sorted_culprits[1:]` loop of `_create_blame_groups`:
`current` is the open group (non-empty, in arrival order); a line within
`2 * CONTEXT_LINES` of the last line added extends it, otherwise the group is
closed and a new one opened; the final open group is always closed. -/
def groupWalk (file_lines : List String) (change : GitChange)
    (file_path : String) : List Int → List Int → List BlameLineGroup
  | current, [] => [createSingleGroup current file_lines change file_path]
  | current, line_num :: rest =>
    if line_num ≤ current.getLastD 0 + 2 * CONTEXT_LINES then
      groupWalk file_lines change file_path (current ++ [line_num]) rest
    else
      createSingleGroup current file_lines change file_path ::
        groupWalk file_lines change file_path [line_num] rest

/-- BlameIntersector._create_blame_groups: sort the culprit set ascending and
walk it, grouping lines whose gap to the last grouped line is at most
`2 * CONTEXT_LINES`. -/
def createBlameGroups (culprit_lines : Finset Int) (file_lines : List String)
    (change : GitChange) (file_path : String) : List BlameLineGroup :=
  match culprit_lines.sort (fun a b => a ≤ b) with
  | [] => []
  | first :: rest => groupWalk file_lines change file_path [first] rest

/-- One iteration of the `for file_path, file_coverage in coverage_data`
loop of BlameIntersector.intersect: skip when there are no uncovered lines,
intersect with the change record found under the exact path key (no record
means an empty culprit set), and emit a BlameResult only when the culprit
set is non-empty.  `fileContents` models reading the file under the
repository root, an absent file giving `[]`. -/
def intersectStep (git_changes : String → Option GitChange)
    (fileContents : String → List String) (entry : String × FileCoverage) :
    Option BlameResult :=
  let uncovered_lines := entry.2.get_uncovered_lines
  if uncovered_lines = ∅ then none
  else
    match git_changes entry.1 with
    | none => none
    | some change =>
      let culprit_lines := uncovered_lines ∩ change.line_numbers
      if culprit_lines = ∅ then none
      else
        let file_lines := fileContents entry.1
        some
          { file_path := entry.1
            total_uncovered_lines := uncovered_lines.card
            uncovered_in_changes := culprit_lines.card
            blame_groups :=
              createBlameGroups culprit_lines file_lines change entry.1 }

/-- The result list of BlameIntersector.intersect before the final sort, in
coverage-map iteration (discovery) order. -/
def intersectPre (coverage_data : List (String × FileCoverage))
    (git_changes : String → Option GitChange)
    (fileContents : String → List String) : List BlameResult :=
  coverage_data.filterMap (intersectStep git_changes fileContents)

/-- The comparison of `sorted(results, key=lambda r: r.uncovered_in_changes,
reverse=True)`: a stable sort placing larger culprit counts first. -/
def blameOrder (a b : BlameResult) : Bool :=
  decide (b.uncovered_in_changes ≤ a.uncovered_in_changes)

/-- BlameIntersector.intersect: the emitted results, stably sorted in
descending order of `uncovered_in_changes` (Python `sorted` is stable, as is
`List.mergeSort`, and a stable sort under a fixed total preorder is unique,
so the two agree). -/
def intersect (coverage_data : List (String × FileCoverage))
    (git_changes : String → Option GitChange)
    (fileContents : String → List String) : List BlameResult :=
  (intersectPre coverage_data git_changes fileContents).mergeSort blameOrder

/-! ### git_analyzer.get_recent_changes merge loop -/

/-- The merge loop of get_recent_changes: fold one commit's per-file
contributions (`commit_changes.items()`, a dict so its keys are distinct)
into the accumulated map.  A file not seen before stores the whole
GitChange; an already present file only has its line-number set unioned
(`changes[file_path].line_numbers.update(change.line_numbers)`), leaving the
first commit's provenance fields in place. -/
def mergeFileChange (m : String → Option GitChange) (fc : String × GitChange) :
    String → Option GitChange :=
  match m fc.1 with
  | none => fun x => if x = fc.1 then some fc.2 else m x
  | some existing =>
    fun x =>
      if x = fc.1 then
        some { existing with
          line_numbers := existing.line_numbers ∪ fc.2.line_numbers }
      else m x

/-- See `mergeFileChange`: the fold of one commit's contributions into the
accumulated map. -/
def mergeCommitChanges (changes : String → Option GitChange)
    (commit_changes : List (String × GitChange)) : String → Option GitChange :=
  commit_changes.foldl mergeFileChange changes

/-- The empty `changes` dict get_recent_changes starts from. -/
def emptyChanges : String → Option GitChange := fun _ => none

/-! ### cobertura_parser -/

/-- Python `str.replace("\\", "/")`: a single-character pattern, so a
character-wise map. -/
def replaceBackslash (s : String) : String :=
  String.mk (s.toList.map (fun c => if c = '\\' then '/' else c))

/-- Join path components with `/` (`"/".join`, the inverse of splitting). -/
def joinSlash : List (List Char) → List Char
  | [] => []
  | [c] => c
  | c :: rest => c ++ '/' :: joinSlash rest

/-- `str(pathlib.PurePosixPath(s))` (the parser runs `pathlib.Path`, POSIX
flavour on the analysis host): split on slashes, drop empty and `.`
components, re-join; a leading slash (or exactly two leading slashes, a
POSIX special case) is kept as the root; the empty path prints as `.`. -/
def posixNormalize (s : String) : String :=
  let cs := s.toList
  let comps := (pySplitChar '/' cs).filter (fun c => decide (c ≠ [] ∧ c ≠ ['.']))
  let root : List Char :=
    match cs with
    | '/' :: '/' :: '/' :: _ => ['/']
    | '/' :: '/' :: _ => ['/', '/']
    | '/' :: _ => ['/']
    | _ => []
  let body := joinSlash comps
  if root.isEmpty && body.isEmpty then String.mk ['.']
  else String.mk (root ++ body)

/-- POSIX `Path.is_absolute()`: the path has a root. -/
def pyPathIsAbsolute (s : String) : Bool :=
  match s.toList with
  | '/' :: _ => true
  | _ => false

/-- POSIX `Path(p).relative_to(root)` on normalized path strings: strip the
root prefix componentwise, `none` for the ValueError when `p` is not under
`root`.  In the POSIX model every path the parser builds starts with `C`,
never `/`, so `_normalize_path` can only reach this through its dead
absolute branch. -/
def relativeTo (p root : String) : Option String :=
  if p = root then some (String.mk ['.'])
  else if (root.toList ++ ['/']).isPrefixOf p.toList then
    some (String.mk (p.toList.drop (root.toList.length + 1)))
  else none

/-- POSIX `Path.name` of a normalized path: its final component (for the
absolute multi-component paths the fallback branch of `_normalize_path`
would receive). -/
def pathName (p : String) : String :=
  String.mk ((pySplitChar '/' p.toList).getLastD [])

/-- cobertura_parser._normalize_path under the POSIX pathlib model.
`repo_root` stands for the already-resolved `self.repo_root`. -/
def normalizePath (repo_root : String) (file_path : String) : String :=
  let p := posixNormalize file_path
  if pyPathIsAbsolute file_path then
    match relativeTo p (posixNormalize repo_root) with
    | some rel => replaceBackslash rel
    | none => pathName p
  else
    replaceBackslash p

/-- Python `int(s)` on an unsigned digit run. -/
def pyIntDigits (ds : List Char) : Option Nat :=
  if ds.isEmpty then none
  else if ds.all (fun c => c.isDigit) then some (digitsToNat ds)
  else none

/-- Python `int(s)` restricted to the decimal forms coverage attributes
carry: optional surrounding whitespace, optional sign, one or more ASCII
digits (underscore separators and non-ASCII digits are out of scope). -/
def pyInt (s : String) : Option Int :=
  let cs :=
    ((s.toList.dropWhile (fun c => c.isWhitespace)).reverse.dropWhile
      (fun c => c.isWhitespace)).reverse
  match cs with
  | '-' :: ds => (pyIntDigits ds).map (fun n => -(n : Int))
  | '+' :: ds => (pyIntDigits ds).map (fun n => (n : Int))
  | ds => (pyIntDigits ds).map (fun n => (n : Int))

/-- Magnitude part of Python `float(s)`: `digits`, `digits.digits`,
`digits.` or `.digits`. -/
def pyFloatMag (cs : List Char) : Option Rat :=
  let ip := cs.takeWhile (fun c => c.isDigit)
  let rest := cs.dropWhile (fun c => c.isDigit)
  match rest with
  | [] => if ip.isEmpty then none else some ((digitsToNat ip : Rat))
  | '.' :: fp =>
    if fp.all (fun c => c.isDigit) && !(ip.isEmpty && fp.isEmpty) then
      some ((digitsToNat ip : Rat) + (digitsToNat fp : Rat) / ((10 : Rat) ^ fp.length))
    else none
  | _ => none

/-- Python `float(s)` restricted to plain decimal forms (exponent, inf and
nan spellings are out of scope); the value is exact as a rational, which is
faithful for the single sign test the parser performs on it. -/
def pyFloatQ (s : String) : Option Rat :=
  let cs :=
    ((s.toList.dropWhile (fun c => c.isWhitespace)).reverse.dropWhile
      (fun c => c.isWhitespace)).reverse
  match cs with
  | '-' :: ds => (pyFloatMag ds).map (fun q => -q)
  | '+' :: ds => pyFloatMag ds
  | ds => pyFloatMag ds

/-- A `<line>` element's attributes as the parser reads them (`none` models
an absent attribute). -/
structure LineElem where
  number : Option String
  hits : Option String
  branchRate : Option String

/-- A `<class>` element: its `filename` attribute and its `lines/line`
children in document order. -/
structure ClassElem where
  filename : Option String
  lineElems : List LineElem

/-- The per-line-element try block of CoberturaParser.parse: parse `number`
and `hits` (attribute default "0"); `hits > 0` means covered, otherwise a
present and non-empty `branch-rate` attribute is parsed as a float and
decides partial when positive; a ValueError from int() or float() skips the
entry (`continue`). -/
def parseLineElem (e : LineElem) : Option LineInfo :=
  match pyInt (e.number.getD "0"), pyInt (e.hits.getD "0") with
  | some line_number, some hits =>
    if hits > 0 then some ⟨line_number, LineStatus.covered, hits⟩
    else
      match e.branchRate with
      | none => some ⟨line_number, LineStatus.uncovered, hits⟩
      | some br =>
        if br = "" then some ⟨line_number, LineStatus.uncovered, hits⟩
        else
          match pyFloatQ br with
          | none => none
          | some q =>
            if q > 0 then some ⟨line_number, LineStatus.partialCov, hits⟩
            else some ⟨line_number, LineStatus.uncovered, hits⟩
  | _, _ => none

/-- The line records one class element contributes (the inner loop with its
silent `continue` on unparseable entries). -/
def parseClassLines (c : ClassElem) : List LineInfo :=
  c.lineElems.filterMap parseLineElem

/-- The hardcoded workspace prefix CoberturaParser.parse prepends. -/
def workspacePrefix : String := "C:\\workspace\\"

/-- The per-class path computation of CoberturaParser.parse: skip when the
`filename` attribute is missing or empty (`if not file_path`), prepend the
hardcoded `C:\workspace\` prefix when absent, then `_normalize_path`. -/
def classKey (repo_root : String) (c : ClassElem) : Option String :=
  match c.filename with
  | none => none
  | some fp =>
    if fp = "" then none
    else
      let fp2 := if pyStartsWith fp workspacePrefix then fp
        else workspacePrefix ++ fp
      some (normalizePath repo_root fp2)

/-- CoberturaParser.parse over the report's class elements, as the map from
normalized path to FileCoverage (dict modelled by lookup): each class with a
usable filename and at least one parsed line record is stored under its key,
overwriting any earlier class with the same key; a class with zero parsed
records stores nothing (`if file_coverage.lines`). -/
def coberturaStep (repo_root : String) (m : String → Option FileCoverage)
    (c : ClassElem) : String → Option FileCoverage :=
  match classKey repo_root c with
  | none => m
  | some key =>
    let fc : FileCoverage := ⟨key, parseClassLines c⟩
    if fc.lines ≠ [] then (fun x => if x = key then some fc else m x) else m

/-- See `coberturaStep`: the class-element loop of CoberturaParser.parse,
starting from the empty dict. -/
def coberturaParse (repo_root : String) (classes : List ClassElem) :
    String → Option FileCoverage :=
  classes.foldl (coberturaStep repo_root) (fun _ => none)

/-! ### helpers for stating and settling the claims -/

/-- Boolean strict ascending chain check, used to hand concrete sorted lists
to `Finset.sort` equations. -/
def chainLt : List Int → Bool
  | [] => true
  | [_] => true
  | a :: b :: t => decide (a < b) && chainLt (b :: t)

/-- The culprit set intersect computes for one coverage entry: the uncovered
lines intersected with the change record's lines, empty when no record
exists under the path key. -/
def culpritOf (git_changes : String → Option GitChange) (fp : String)
    (fc : FileCoverage) : Finset Int :=
  match git_changes fp with
  | some change => fc.get_uncovered_lines ∩ change.line_numbers
  | none => ∅

/-! ### concrete sample inputs used by witnesses, counterexamples and the
concrete spec scenarios -/

/-- A coverage record whose line numbers carry one status each. -/
def sampleCoverageDistinct : FileCoverage :=
  ⟨"test.py", [⟨1, LineStatus.covered, 1⟩, ⟨2, LineStatus.uncovered, 0⟩]⟩

/-- A coverage record listing line 1 both as covered and as uncovered. -/
def sampleCoverageDup : FileCoverage :=
  ⟨"test.py", [⟨1, LineStatus.covered, 1⟩, ⟨1, LineStatus.uncovered, 0⟩]⟩

/-- Two change records equal in `file_path` but not in `line_numbers`. -/
def sampleChangeA : GitChange := ⟨"f", {1}, "", "", "", ""⟩

/-- See `sampleChangeA`. -/
def sampleChangeB : GitChange := ⟨"f", {2}, "", "", "", ""⟩

/-- A 15-line file, `line 1` .. `line 15`. -/
def sampleFile15 : List String :=
  (List.range 15).map (fun i => "line " ++ toString (i + 1) ++ "\n")

/-- A 30-line file, `line 1` .. `line 30`. -/
def sampleFile30 : List String :=
  (List.range 30).map (fun i => "line " ++ toString (i + 1) ++ "\n")

/-- A change record for the grouping scenarios. -/
def sampleChange567 : GitChange := ⟨"test.py", {5, 6, 7}, "Test", "abc123", "", ""⟩

/-- Coverage for the intersection scenario: uncovered lines {2, 3, 4} out of
recorded lines 1..5. -/
def sampleCoverage234 : FileCoverage :=
  ⟨"f", [⟨1, LineStatus.covered, 1⟩, ⟨2, LineStatus.uncovered, 0⟩,
    ⟨3, LineStatus.uncovered, 0⟩, ⟨4, LineStatus.uncovered, 0⟩,
    ⟨5, LineStatus.covered, 1⟩]⟩

/-- Change map for the intersection scenario: file `f` changed at {2, 4}. -/
def sampleChanges24 : String → Option GitChange :=
  fun p => if p = "f" then some ⟨"f", {2, 4}, "a", "abc1234", "d", "m"⟩ else none

/-- Repository contents for the intersection scenario. -/
def sampleContents : String → List String := fun _ => sampleFile15

/-- Coverage with a single uncovered line (a second file for the ordering
scenario). -/
def sampleCoverageOne (name : String) (n : Int) : FileCoverage :=
  ⟨name, [⟨n, LineStatus.uncovered, 0⟩]⟩

/-- A coverage report with one class element under the relative path
`src/main.py`, one uncovered line. -/
def sampleDoc : List ClassElem :=
  [⟨some "src/main.py", [⟨some "2", some "0", none⟩]⟩]

/-- Two class elements with the same filename: the first with one parsed
record, the second with another. -/
def sampleDupC1 : ClassElem := ⟨some "a.py", [⟨some "1", some "0", none⟩]⟩

/-- See `sampleDupC1`. -/
def sampleDupC2 : ClassElem := ⟨some "a.py", [⟨some "2", some "1", none⟩]⟩

/-- A duplicate class element whose single line entry fails to parse
(non-numeric `number`), so it contributes zero records. -/
def sampleDupEmpty : ClassElem := ⟨some "a.py", [⟨some "x", some "0", none⟩]⟩

/-! ### the spec's wording of the grouping walk (for the refinement claim) -/

/-- Modelled from the spec (§4.3a), for comparison with `createBlameGroups`:
the walk over the ascending culprit lines as chunks; a line joins the open
chunk exactly when it is at most `2 × CONTEXT_SPAN` (CONTEXT_SPAN = 5) above
the last line added to it, otherwise the chunk is closed and a new one
opened. -/
def specChunks : List Int → List Int → List (List Int)
  | current, [] => [current]
  | current, n :: rest =>
    if n ≤ current.getLastD 0 + 2 * 5 then specChunks (current ++ [n]) rest
    else current :: specChunks [n] rest

/-- Modelled from the spec: a closed group's `start_line` is the minimum of
its culprit lines. -/
def chunkMin (c : List Int) : Int := c.foldl min (c.headD 0)

/-- Modelled from the spec: a closed group's `end_line` is the maximum of
its culprit lines. -/
def chunkMax (c : List Int) : Int := c.foldl max (c.headD 0)

/-- Modelled from the spec (§4.3a): sort the culprit set ascending, walk it
into chunks, and report each chunk's (min, max) boundary pair. -/
def specGroupBoundaries (culprits : Finset Int) : List (Int × Int) :=
  match culprits.sort (fun a b => a ≤ b) with
  | [] => []
  | first :: rest =>
    (specChunks [first] rest).map (fun c => (chunkMin c, chunkMax c))

end BlameTracker

namespace BlameTracker

/-! ### shared helper lemmas -/

/-- The two derived sets of a FileCoverage are subsets of all recorded line
numbers. -/
theorem sanity_subsets (fc : FileCoverage) :
    fc.get_uncovered_lines ⊆ fc.all_line_numbers ∧
      fc.get_covered_lines ⊆ fc.all_line_numbers := by
  constructor <;>
    · intro n hn
      simp only [FileCoverage.get_uncovered_lines, FileCoverage.get_covered_lines,
        FileCoverage.all_line_numbers, List.mem_toFinset, List.mem_map,
        List.mem_filter] at hn ⊢
      obtain ⟨l, ⟨hl, _⟩, rfl⟩ := hn
      exact ⟨l, hl, rfl⟩

/-- In a list of key-value pairs with pairwise distinct keys (a Python dict),
a key determines its value. -/
theorem key_unique {β : Type} : ∀ {l : List (String × β)},
    (l.map Prod.fst).Nodup →
    ∀ {k : String} {a b : β}, (k, a) ∈ l → (k, b) ∈ l → a = b := by
  intro l
  induction l with
  | nil => intro _ k a b ha; cases ha
  | cons p t ih =>
    intro hnd k a b ha hb
    rw [List.map_cons, List.nodup_cons] at hnd
    rcases List.mem_cons.mp ha with ha1 | ha2 <;>
      rcases List.mem_cons.mp hb with hb1 | hb2
    · exact (Prod.ext_iff.mp (ha1.trans hb1.symm)).2
    · rw [← ha1] at hnd
      have hk : k ∈ t.map Prod.fst := List.mem_map.mpr ⟨(k, b), hb2, rfl⟩
      exact absurd hk hnd.1
    · rw [← hb1] at hnd
      have hk : k ∈ t.map Prod.fst := List.mem_map.mpr ⟨(k, a), ha2, rfl⟩
      exact absurd hk hnd.1
    · exact ih hnd.2 ha2 hb2

/-- A concrete strictly ascending list is strictly pairwise ordered. -/
theorem chainLt_pairwise : ∀ {l : List Int}, chainLt l = true →
    l.Pairwise (fun a b => a < b)
  | [], _ => List.Pairwise.nil
  | [a], _ => by simp
  | a :: b :: t, h => by
    rw [chainLt, Bool.and_eq_true, decide_eq_true_eq] at h
    have h2 := chainLt_pairwise (l := b :: t) h.2
    refine List.Pairwise.cons ?_ h2
    intro x hx
    rcases List.mem_cons.mp hx with rfl | hx
    · exact h.1
    · exact lt_trans h.1 (List.rel_of_pairwise_cons h2 hx)

/-- Evaluation rule for `Finset.sort` at concrete sets: a strictly ascending
enumeration of the set is the sort. -/
theorem sort_eq_of_chain (s : Finset Int) (l : List Int)
    (h1 : chainLt l = true) (h2 : l.toFinset = s) :
    s.sort (fun a b => a ≤ b) = l := by
  have hpl : l.Pairwise (fun a b => a < b) := chainLt_pairwise h1
  have hnd : l.Nodup := hpl.imp (fun h => ne_of_lt h)
  have hperm : (s.sort (fun a b => a ≤ b)).Perm l :=
    List.perm_of_nodup_nodup_toFinset_eq (Finset.sort_nodup _ s) hnd
      (by rw [Finset.sort_toFinset, h2])
  exact List.eq_of_perm_of_sorted hperm (Finset.sort_sorted _ s)
    (hpl.imp (fun h => le_of_lt h))

/-- One merge step leaves lookups at other keys unchanged. -/
theorem mergeFileChange_other {F : String} (m : String → Option GitChange)
    (p : String × GitChange) (hne : F ≠ p.1) :
    mergeFileChange m p F = m F := by
  rw [mergeFileChange]
  cases m p.1 <;> simp [hne]

/-- Lookup through the commit-merge fold is untouched at keys the merged
contribution does not mention. -/
theorem merge_lookup_not_mem {F : String} : ∀ (l : List (String × GitChange))
    (m : String → Option GitChange), F ∉ l.map Prod.fst →
    mergeCommitChanges m l F = m F := by
  intro l
  induction l with
  | nil => intro m _; rfl
  | cons p t ih =>
    intro m hF
    rw [List.map_cons] at hF
    have hne : F ≠ p.1 := by
      intro h
      exact hF (h ▸ List.mem_cons_self _ _)
    have hFt : F ∉ t.map Prod.fst := fun h => hF (List.mem_cons_of_mem _ h)
    show (p :: t).foldl mergeFileChange m F = m F
    rw [List.foldl_cons]
    calc t.foldl mergeFileChange (mergeFileChange m p) F
        = mergeFileChange m p F := ih (mergeFileChange m p) hFt
      _ = m F := mergeFileChange_other m p hne

/-- Lookup after merging a contribution that mentions key `F` (its keys
distinct, as a Python dict's are), when `F` was not yet present: the whole
GitChange is stored. -/
theorem merge_lookup_new {F : String} {c : GitChange} :
    ∀ (l : List (String × GitChange)) (m : String → Option GitChange),
    (l.map Prod.fst).Nodup → (F, c) ∈ l → m F = none →
    mergeCommitChanges m l F = some c := by
  intro l
  induction l with
  | nil => intro m _ hm; cases hm
  | cons p t ih =>
    intro m hnd hm hF
    rw [List.map_cons, List.nodup_cons] at hnd
    show (p :: t).foldl mergeFileChange m F = some c
    rw [List.foldl_cons]
    rcases List.mem_cons.mp hm with rfl | hmt
    · have hstep : mergeFileChange m (F, c) F = some c := by
        rw [mergeFileChange]
        simp only [hF]
        simp
      have hnotin : F ∉ t.map Prod.fst := hnd.1
      calc t.foldl mergeFileChange (mergeFileChange m (F, c)) F
          = mergeFileChange m (F, c) F := merge_lookup_not_mem t _ hnotin
        _ = some c := hstep
    · have hne : F ≠ p.1 := by
        intro h
        exact hnd.1 (h ▸ List.mem_map.mpr ⟨(F, c), hmt, rfl⟩)
      have hstep : mergeFileChange m p F = none :=
        (mergeFileChange_other m p hne).trans hF
      exact ih (mergeFileChange m p) hnd.2 hmt hstep

/-- Lookup after merging a contribution that mentions key `F`, when `F` is
already present: only the line-number sets are unioned, the provenance
fields stay. -/
theorem merge_lookup_existing {F : String} {c ex : GitChange} :
    ∀ (l : List (String × GitChange)) (m : String → Option GitChange),
    (l.map Prod.fst).Nodup → (F, c) ∈ l → m F = some ex →
    mergeCommitChanges m l F =
      some { ex with line_numbers := ex.line_numbers ∪ c.line_numbers } := by
  intro l
  induction l with
  | nil => intro m _ hm; cases hm
  | cons p t ih =>
    intro m hnd hm hF
    rw [List.map_cons, List.nodup_cons] at hnd
    show (p :: t).foldl mergeFileChange m F = _
    rw [List.foldl_cons]
    rcases List.mem_cons.mp hm with rfl | hmt
    · have hstep : mergeFileChange m (F, c) F =
          some { ex with line_numbers := ex.line_numbers ∪ c.line_numbers } := by
        rw [mergeFileChange]
        simp only [hF]
        simp
      calc t.foldl mergeFileChange (mergeFileChange m (F, c)) F
          = mergeFileChange m (F, c) F := merge_lookup_not_mem t _ hnd.1
        _ = _ := hstep
    · have hne : F ≠ p.1 := by
        intro h
        exact hnd.1 (h ▸ List.mem_map.mpr ⟨(F, c), hmt, rfl⟩)
      have hstep : mergeFileChange m p F = some ex :=
        (mergeFileChange_other m p hne).trans hF
      exact ih (mergeFileChange m p) hnd.2 hmt hstep

/-! ### the claims -/

/-- C8 (corrected): for every FileCoverageSet, `uncovered_lines()` and
`covered_lines()` are subsets of the recorded line numbers; they are
disjoint provided no line number is recorded both with Covered and with
Uncovered status (the source keeps LineInfo records in a plain list, so a
duplicated line number with both statuses lands in both sets — see the
counterexample). -/
theorem gap_sets_disjoint_and_bounded (fc : FileCoverage)
    (hones : ∀ a ∈ fc.lines, ∀ b ∈ fc.lines, a.line_number = b.line_number →
      ¬(a.status = LineStatus.covered ∧ b.status = LineStatus.uncovered)) :
    fc.get_uncovered_lines ∩ fc.get_covered_lines = ∅ ∧
    fc.get_uncovered_lines ⊆ fc.all_line_numbers ∧
    fc.get_covered_lines ⊆ fc.all_line_numbers := by
  refine ⟨?_, (sanity_subsets fc).1, (sanity_subsets fc).2⟩
  rw [Finset.eq_empty_iff_forall_not_mem]
  intro n hn
  rw [Finset.mem_inter] at hn
  simp only [FileCoverage.get_uncovered_lines, FileCoverage.get_covered_lines,
    List.mem_toFinset, List.mem_map, List.mem_filter, beq_iff_eq] at hn
  obtain ⟨⟨a, ⟨ha, hau⟩, han⟩, ⟨b, ⟨hb, hbc⟩, hbn⟩⟩ := hn
  exact hones b hb a ha (hbn.trans han.symm) ⟨hbc, hau⟩

/-- C8, counterexample to the claim as stated: with line 1 recorded both as
covered and as uncovered, the two derived sets intersect. -/
theorem gap_sets_disjoint_counterexample :
    sampleCoverageDup.get_uncovered_lines ∩ sampleCoverageDup.get_covered_lines ≠ ∅ := by
  decide

/-- C8, witness: the theorem applied at a concrete record with one status
per line. -/
theorem gap_sets_disjoint_and_bounded_witness :
    sampleCoverageDistinct.get_uncovered_lines ∩
        sampleCoverageDistinct.get_covered_lines = ∅ ∧
    sampleCoverageDistinct.get_uncovered_lines ⊆ sampleCoverageDistinct.all_line_numbers ∧
    sampleCoverageDistinct.get_covered_lines ⊆ sampleCoverageDistinct.all_line_numbers :=
  gap_sets_disjoint_and_bounded sampleCoverageDistinct (by decide)

/-- C4 (corrected): GitChange hashing is by `file_path` alone, so equal
paths give equal hashes under any interpreter hash function; but the
dataclass-generated equality is structural over all six fields, so values
differing in `line_numbers` do not compare equal (see the counterexample). -/
theorem change_record_eq_hash (h : String → Int) (c1 c2 : GitChange)
    (hfp : c1.file_path = c2.file_path) :
    GitChange.pyHash h c1 = GitChange.pyHash h c2 ∧
    (GitChange.pyEq c1 c2 = true ↔ c1 = c2) := by
  refine ⟨by simp [GitChange.pyHash, hfp], ?_⟩
  cases c1
  cases c2
  simp [GitChange.pyEq, GitChange.mk.injEq, Bool.and_eq_true, beq_iff_eq,
    decide_eq_true_eq, and_assoc]

/-- C4, counterexample to the claim as stated: same `file_path`, different
`line_numbers` — the generated equality rejects the pair (while the hash, by
the theorem, agrees). -/
theorem change_record_eq_counterexample :
    sampleChangeA.file_path = sampleChangeB.file_path ∧
    sampleChangeA.line_numbers ≠ sampleChangeB.line_numbers ∧
    GitChange.pyEq sampleChangeA sampleChangeB = false := by
  refine ⟨rfl, by decide, ?_⟩
  decide

/-- C4, witness: the theorem applied at the two sample records. -/
theorem change_record_eq_hash_witness :
    GitChange.pyHash (fun _ => 0) sampleChangeA = GitChange.pyHash (fun _ => 0) sampleChangeB ∧
    (GitChange.pyEq sampleChangeA sampleChangeB = true ↔ sampleChangeA = sampleChangeB) :=
  change_record_eq_hash (fun _ => 0) sampleChangeA sampleChangeB rfl

/-- C9 (confirmed): merging the per-commit contributions of commits A and B,
both touching file F, yields a record whose `changed_line_numbers` is the
union of the two contributions, in either merge order. -/
theorem merge_union_commutes (changesA changesB : List (String × GitChange))
    (F : String) (cA cB : GitChange)
    (hA : (changesA.map Prod.fst).Nodup) (hB : (changesB.map Prod.fst).Nodup)
    (hmA : (F, cA) ∈ changesA) (hmB : (F, cB) ∈ changesB) :
    (∃ c1, mergeCommitChanges (mergeCommitChanges emptyChanges changesA) changesB F
        = some c1 ∧ c1.line_numbers = cA.line_numbers ∪ cB.line_numbers) ∧
    (∃ c2, mergeCommitChanges (mergeCommitChanges emptyChanges changesB) changesA F
        = some c2 ∧ c2.line_numbers = cA.line_numbers ∪ cB.line_numbers) := by
  have hA1 : mergeCommitChanges emptyChanges changesA F = some cA :=
    merge_lookup_new changesA emptyChanges hA hmA rfl
  have hB1 : mergeCommitChanges emptyChanges changesB F = some cB :=
    merge_lookup_new changesB emptyChanges hB hmB rfl
  refine ⟨⟨_, merge_lookup_existing changesB _ hB hmB hA1, rfl⟩,
    ⟨_, merge_lookup_existing changesA _ hA hmA hB1, ?_⟩⟩
  exact Finset.union_comm _ _

/-- C9, witness: two concrete single-file contributions merged both ways. -/
theorem merge_union_commutes_witness :
    (∃ c1, mergeCommitChanges (mergeCommitChanges emptyChanges [("f", sampleChangeA)])
        [("f", sampleChangeB)] "f" = some c1 ∧
        c1.line_numbers = sampleChangeA.line_numbers ∪ sampleChangeB.line_numbers) ∧
    (∃ c2, mergeCommitChanges (mergeCommitChanges emptyChanges [("f", sampleChangeB)])
        [("f", sampleChangeA)] "f" = some c2 ∧
        c2.line_numbers = sampleChangeA.line_numbers ∪ sampleChangeB.line_numbers) :=
  merge_union_commutes [("f", sampleChangeA)] [("f", sampleChangeB)] "f"
    sampleChangeA sampleChangeB (by decide) (by decide)
    (List.mem_cons_self _ _) (List.mem_cons_self _ _)

/-- C1 (confirmed): the diff parser's per-body-line counter discipline.
Within a registered file, and for a body line (neither a `+++` file header
nor a hunk header): a `+` line records the current post-image counter in the
file's changed set and then increments the counter; a `-` line neither
records nor increments; a `\` line is ignored entirely; any other body line
increments without recording.  Concretely, the hunk `@@ -5,6 +5,7 @@` with
three context lines before the addition reports line 8, and the hunk
`@@ -15,5 +16,6 @@` with body [context, context, delete, context, add]
reports line 19. -/
theorem diff_counter_discipline :
    (∀ (st : DiffState) (f : String) (s : Finset Int) (line : String),
      st.current_file = some f →
      st.changes_by_file (some f) = some s →
      pyStartsWith line "+++" = false →
      matchHunkHeader line = none →
      ((pyStartsWith line "+" = true →
          diffStep st line = some { st with
            changes_by_file := updMap st.changes_by_file (some f)
              (insert st.current_line_num s),
            current_line_num := st.current_line_num + 1 }) ∧
       (pyStartsWith line "+" = false → pyStartsWith line "-" = true →
          diffStep st line = some st) ∧
       (pyStartsWith line "+" = false → pyStartsWith line "-" = false →
          pyStartsWith line "\\" = true → diffStep st line = some st) ∧
       (pyStartsWith line "+" = false → pyStartsWith line "-" = false →
          pyStartsWith line "\\" = false →
          diffStep st line = some { st with
            current_line_num := st.current_line_num + 1 }))) ∧
    parseUnifiedDiffLines ["+++ b/f", "@@ -5,6 +5,7 @@", " a", " b", " c",
      "+x", " d", " e", " f"] (some "f") = some {8} ∧
    parseUnifiedDiffLines ["+++ b/g", "@@ -15,5 +16,6 @@", " a", " b",
      "-old", " c", "+new"] (some "g") = some {19} := by
  refine ⟨?_, by decide, by decide⟩
  intro st f s line hcf hcs h3 hmh
  refine ⟨?_, ?_, ?_, ?_⟩
  · intro hp
    simp [diffStep, h3, hmh, hcf, hcs, hp]
  · intro hp hm
    simp [diffStep, h3, hmh, hcf, hp, hm]
  · intro hp hm hb
    simp [diffStep, h3, hmh, hcf, hp, hm, hb]
  · intro hp hm hb
    simp [diffStep, h3, hmh, hcf, hp, hm, hb]

/-- Folding `min` over elements the seed already bounds returns the seed. -/
theorem foldl_min_of_le : ∀ (t : List Int) (h : Int), (∀ x ∈ t, h ≤ x) →
    t.foldl min h = h := by
  intro t
  induction t with
  | nil => intro h _; rfl
  | cons a t2 ih =>
    intro h hle
    rw [List.foldl_cons, min_eq_left (hle a (List.mem_cons_self _ _))]
    exact ih h (fun x hx => hle x (List.mem_cons_of_mem _ hx))

/-- On an ascending chunk the spec's minimum is the head. -/
theorem chunkMin_eq_head (h : Int) (t : List Int)
    (hp : (h :: t).Pairwise (fun a b => a ≤ b)) : chunkMin (h :: t) = h := by
  rw [chunkMin]
  show (h :: t).foldl min h = h
  rw [List.foldl_cons, min_self]
  exact foldl_min_of_le t h (fun x hx => List.rel_of_pairwise_cons hp hx)

/-- Folding `max` along an ascending run reaches the last element. -/
theorem foldl_max_eq_last : ∀ (t : List Int) (h : Int),
    (h :: t).Pairwise (fun a b => a ≤ b) →
    t.foldl max h = (h :: t).getLastD 0 := by
  intro t
  induction t with
  | nil => intro h _; rfl
  | cons a t2 ih =>
    intro h hp
    rw [List.foldl_cons, max_eq_right (List.rel_of_pairwise_cons hp (List.mem_cons_self _ _))]
    rw [ih a hp.of_cons]
    simp [List.getLastD_cons]

/-- On an ascending chunk the spec's maximum is the last element. -/
theorem chunkMax_eq_last (h : Int) (t : List Int)
    (hp : (h :: t).Pairwise (fun a b => a ≤ b)) :
    chunkMax (h :: t) = (h :: t).getLastD 0 := by
  rw [chunkMax]
  show (h :: t).foldl max h = _
  rw [List.foldl_cons, max_self]
  exact foldl_max_eq_last t h hp

/-- A closed group's boundary pair is the spec's (min, max) of its ascending
culprit chunk. -/
theorem single_boundary (current : List Int) (fl : List String)
    (ch : GitChange) (p : String) (hne : current ≠ [])
    (hp : current.Pairwise (fun a b => a ≤ b)) :
    ((createSingleGroup current fl ch p).start_line,
      (createSingleGroup current fl ch p).end_line) =
      (chunkMin current, chunkMax current) := by
  obtain ⟨h, t, rfl⟩ := List.exists_cons_of_ne_nil hne
  rw [chunkMin_eq_head h t hp, chunkMax_eq_last h t hp]
  simp [createSingleGroup]

/-- The code's grouping walk and the spec's chunk walk produce the same
boundary pairs on a sorted input. -/
theorem groupWalk_boundaries (fl : List String) (ch : GitChange) (p : String) :
    ∀ (rest current : List Int), current ≠ [] →
    (current ++ rest).Pairwise (fun a b => a ≤ b) →
    (groupWalk fl ch p current rest).map (fun g => (g.start_line, g.end_line)) =
      (specChunks current rest).map (fun c => (chunkMin c, chunkMax c)) := by
  intro rest
  induction rest with
  | nil =>
    intro current hne hp
    rw [List.append_nil] at hp
    rw [groupWalk, specChunks, List.map_cons, List.map_cons, List.map_nil, List.map_nil]
    rw [single_boundary current fl ch p hne hp]
  | cons n rest2 ih =>
    intro current hne hp
    rw [groupWalk, specChunks]
    have hCL : (2 : Int) * CONTEXT_LINES = 2 * 5 := rfl
    rw [hCL]
    by_cases hjoin : n ≤ current.getLastD 0 + 2 * 5
    · rw [if_pos hjoin, if_pos hjoin]
      have hassoc : current ++ n :: rest2 = (current ++ [n]) ++ rest2 := by
        rw [List.append_cons]
      rw [hassoc] at hp
      exact ih (current ++ [n]) (by simp) hp
    · rw [if_neg hjoin, if_neg hjoin, List.map_cons, List.map_cons]
      have hpc : current.Pairwise (fun a b => a ≤ b) :=
        hp.sublist (List.sublist_append_left current (n :: rest2))
      have hpr : ([n] ++ rest2).Pairwise (fun a b => a ≤ b) :=
        hp.sublist (List.sublist_append_right current (n :: rest2))
      rw [single_boundary current fl ch p hne hpc]
      rw [ih [n] (by simp) hpr]

/-- C5 (confirmed): the grouping algorithm sorts the culprit set ascending
and walks it with an open group, a line joining exactly when it is at most
`2 × CONTEXT_SPAN = 10` above the last line added, and each closed group's
`start_line`/`end_line` are its min/max culprit lines.  Concretely,
`{5,6,7,25,26}` in a 30-line file gives the two groups [5,7] and [25,26],
and `{5,6,7}` in a 15-line file gives one group with start 5, end 7, lines
1–4 before and lines 8–12 after. -/
theorem grouping_boundaries :
    (∀ (culprits : Finset Int) (fl : List String) (ch : GitChange) (p : String),
      (createBlameGroups culprits fl ch p).map (fun g => (g.start_line, g.end_line)) =
        specGroupBoundaries culprits) ∧
    (createBlameGroups {5, 6, 7, 25, 26} sampleFile30 sampleChange567 "test.py").map
        (fun g => (g.start_line, g.end_line)) = [(5, 7), (25, 26)] ∧
    (createBlameGroups {5, 6, 7} sampleFile15 sampleChange567 "test.py").map
        (fun g => (g.start_line, g.end_line, g.context_before, g.culprit_lines,
          g.context_after)) =
      [(5, 7, ["line 1", "line 2", "line 3", "line 4"],
        ["line 5", "line 6", "line 7"],
        ["line 8", "line 9", "line 10", "line 11", "line 12"])] := by
  refine ⟨?_, ?_, ?_⟩
  · intro culprits fl ch p
    rw [createBlameGroups, specGroupBoundaries]
    cases hsort : culprits.sort (fun a b => a ≤ b) with
    | nil => simp
    | cons first rest =>
      have hsorted : (first :: rest).Pairwise (fun a b => a ≤ b) := by
        rw [← hsort]
        exact Finset.sort_sorted _ _
      exact groupWalk_boundaries fl ch p rest [first] (by simp) hsorted
  · have hs : ({5, 6, 7, 25, 26} : Finset Int).sort (fun a b => a ≤ b) =
        [5, 6, 7, 25, 26] := sort_eq_of_chain _ _ (by decide) (by decide)
    rw [createBlameGroups, hs]
    decide
  · have hs : ({5, 6, 7} : Finset Int).sort (fun a b => a ≤ b) = [5, 6, 7] :=
      sort_eq_of_chain _ _ (by decide) (by decide)
    rw [createBlameGroups, hs]
    decide

/-- Elements of an integer range. -/
theorem mem_intRange {n a b : Int} : n ∈ intRange a b ↔ a ≤ n ∧ n < b := by
  simp only [intRange, List.mem_map, List.mem_range]
  constructor
  · rintro ⟨i, hi, rfl⟩
    omega
  · intro h
    exact ⟨(n - a).toNat, by omega, by omega⟩

/-- Splitting an integer range at an interior point. -/
theorem intRange_append {a m b : Int} (h1 : a ≤ m) (h2 : m ≤ b) :
    intRange a b = intRange a m ++ intRange m b := by
  simp only [intRange]
  have hn : (b - a).toNat = (m - a).toNat + (b - m).toNat := by omega
  rw [hn, List.range_add, List.map_append, List.map_map]
  congr 1
  apply List.map_congr_left
  intro i _
  simp only [Function.comp_apply]
  omega

/-- The culprit bucket of the context loop collects exactly the positions
between `start_line` and `end_line`, in order. -/
theorem foldl_bucket_culprit (s e : Int) (fl : List String) :
    ∀ (idxs : List Int) (acc : List String × List String × List String),
      (idxs.foldl (bucketStep s e fl) acc).2.1 =
        acc.2.1 ++ (idxs.filter
          (fun n => !decide (n < s) && decide (n ≤ e))).map (getLineSafe fl) := by
  intro idxs
  induction idxs with
  | nil => intro acc; simp
  | cons n t ih =>
    intro acc
    rw [List.foldl_cons, List.filter_cons]
    by_cases h1 : n < s
    · have hstep : bucketStep s e fl acc n =
          (acc.1 ++ [getLineSafe fl n], acc.2.1, acc.2.2) := by
        rw [bucketStep, if_pos h1]
      rw [hstep, ih]
      simp [h1]
    · by_cases h2 : n ≤ e
      · have hstep : bucketStep s e fl acc n =
            (acc.1, acc.2.1 ++ [getLineSafe fl n], acc.2.2) := by
          rw [bucketStep, if_neg h1, if_pos h2]
        rw [hstep, ih]
        simp [h1, h2]
      · have hstep : bucketStep s e fl acc n =
            (acc.1, acc.2.1, acc.2.2 ++ [getLineSafe fl n]) := by
          rw [bucketStep, if_neg h1, if_neg h2]
        rw [hstep, ih]
        simp [h1, h2]

/-- `groupBuckets`' culprit component, closed form. -/
theorem groupBuckets_culprit (s e : Int) (fl : List String) (idxs : List Int) :
    (groupBuckets s e fl idxs).2.1 =
      (idxs.filter (fun n => !decide (n < s) && decide (n ≤ e))).map
        (getLineSafe fl) := by
  rw [groupBuckets, foldl_bucket_culprit]
  simp

/-- C2 (corrected): `culprit_text` is read purely by position — every line
from `start_line` to `end_line` (a range inside the file here) is included,
whether or not it belongs to the culprit set; the source never consults the
set when assembling the text.  The counterexample shows position 6 included
for culprit set {5, 7}. -/
theorem culprit_text_by_position (cl : List Int) (fl : List String)
    (ch : GitChange) (p : String) (_hne : cl ≠ [])
    (h1 : 1 ≤ cl.headD 0) (h2 : cl.headD 0 ≤ cl.getLastD 0)
    (h3 : cl.getLastD 0 ≤ (fl.length : Int)) :
    (createSingleGroup cl fl ch p).culprit_lines =
      (intRange (cl.headD 0) (cl.getLastD 0 + 1)).map (getLineSafe fl) := by
  have hproj : (createSingleGroup cl fl ch p).culprit_lines =
      (groupBuckets (cl.headD 0) (cl.getLastD 0) fl
        (intRange (max 1 (cl.headD 0 - CONTEXT_LINES))
          (min (fl.length : Int) (cl.getLastD 0 + CONTEXT_LINES) + 1))).2.1 := rfl
  rw [hproj, groupBuckets_culprit]
  set s := cl.headD 0 with hs
  set e := cl.getLastD 0 with he
  have hCL : CONTEXT_LINES = (5 : Int) := rfl
  have hA : max 1 (s - CONTEXT_LINES) ≤ s := max_le h1 (by rw [hCL]; omega)
  have hB : e + 1 ≤ min (fl.length : Int) (e + CONTEXT_LINES) + 1 := by
    have he2 : e ≤ min (fl.length : Int) (e + CONTEXT_LINES) :=
      le_min h3 (by rw [hCL]; omega)
    omega
  have hsB : s ≤ min (fl.length : Int) (e + CONTEXT_LINES) + 1 := by omega
  rw [intRange_append hA hsB]
  rw [intRange_append (a := s) (m := e + 1)
    (b := min (fl.length : Int) (e + CONTEXT_LINES) + 1) (by omega) hB]
  rw [List.filter_append, List.filter_append, List.map_append, List.map_append]
  have hleft : (intRange (max 1 (s - CONTEXT_LINES)) s).filter
      (fun n => !decide (n < s) && decide (n ≤ e)) = [] := by
    rw [List.filter_eq_nil_iff]
    intro n hn
    rw [mem_intRange] at hn
    simp only [Bool.and_eq_true, Bool.not_eq_true', decide_eq_false_iff_not,
      decide_eq_true_eq, not_and]
    intro hns
    omega
  have hmid : (intRange s (e + 1)).filter
      (fun n => !decide (n < s) && decide (n ≤ e)) = intRange s (e + 1) := by
    rw [List.filter_eq_self]
    intro n hn
    rw [mem_intRange] at hn
    simp only [Bool.and_eq_true, Bool.not_eq_true', decide_eq_false_iff_not,
      decide_eq_true_eq]
    omega
  have hright : (intRange (e + 1)
      (min (fl.length : Int) (e + CONTEXT_LINES) + 1)).filter
      (fun n => !decide (n < s) && decide (n ≤ e)) = [] := by
    rw [List.filter_eq_nil_iff]
    intro n hn
    rw [mem_intRange] at hn
    simp only [Bool.and_eq_true, Bool.not_eq_true', decide_eq_false_iff_not,
      decide_eq_true_eq, not_and]
    intro hns
    omega
  rw [hleft, hmid, hright]
  simp

/-- C2, counterexample to the claim as stated: for culprit set {5, 7} the
built group's `culprit_text` holds three lines, including position 6, which
is not a culprit line. -/
theorem culprit_text_counterexample :
    (createBlameGroups {5, 7} sampleFile15 sampleChange567 "test.py").map
        (fun g => g.culprit_lines) = [["line 5", "line 6", "line 7"]] ∧
    (6 : Int) ∉ ({5, 7} : Finset Int) := by
  refine ⟨?_, by decide⟩
  have hs : ({5, 7} : Finset Int).sort (fun a b => a ≤ b) = [5, 7] :=
    sort_eq_of_chain _ _ (by decide) (by decide)
  rw [createBlameGroups, hs]
  decide

/-- C2, witness: the amended theorem applied at the culprit run [5, 6, 7] in
the 15-line file. -/
theorem culprit_text_by_position_witness :
    (createSingleGroup [5, 6, 7] sampleFile15 sampleChange567 "test.py").culprit_lines =
      (intRange 5 8).map (getLineSafe sampleFile15) :=
  culprit_text_by_position [5, 6, 7] sampleFile15 sampleChange567 "test.py"
    (by decide) (by decide) (by decide) (by decide)

/-- Solved form of one intersect loop iteration: a result is produced
exactly when a change record exists and the intersection is non-empty, and
then every field is determined. -/
theorem intersectStep_some_iff (gc : String → Option GitChange)
    (fc : String → List String) (fp : String) (f : FileCoverage)
    (r : BlameResult) :
    intersectStep gc fc (fp, f) = some r ↔
      ∃ change, gc fp = some change ∧
        f.get_uncovered_lines ∩ change.line_numbers ≠ ∅ ∧
        r = { file_path := fp,
              total_uncovered_lines := f.get_uncovered_lines.card,
              uncovered_in_changes :=
                (f.get_uncovered_lines ∩ change.line_numbers).card,
              blame_groups := createBlameGroups
                (f.get_uncovered_lines ∩ change.line_numbers) (fc fp) change fp } := by
  constructor
  · intro h
    simp only [intersectStep] at h
    split at h
    · exact absurd h (by simp)
    · split at h
      · exact absurd h (by simp)
      · rename_i change hgc
        split at h
        · exact absurd h (by simp)
        · rename_i hne2
          exact ⟨change, hgc, hne2, (Option.some.injEq _ _ ▸ h).symm⟩
  · rintro ⟨change, hgc, hne2, rfl⟩
    have hu : ¬(f.get_uncovered_lines = ∅) := by
      intro hu
      apply hne2
      rw [hu]
      exact Finset.empty_inter _
    simp only [intersectStep, hgc]
    rw [if_neg hu, if_neg hne2]

/-- Membership in the pre-sort result list. -/
theorem mem_intersectPre (cov : List (String × FileCoverage))
    (gc : String → Option GitChange) (fc : String → List String)
    (r : BlameResult) :
    r ∈ intersectPre cov gc fc ↔ ∃ e ∈ cov, intersectStep gc fc e = some r := by
  rw [intersectPre]
  exact List.mem_filterMap

/-- The final sort does not change membership. -/
theorem mem_intersect (cov : List (String × FileCoverage))
    (gc : String → Option GitChange) (fc : String → List String)
    (r : BlameResult) :
    r ∈ intersect cov gc fc ↔ r ∈ intersectPre cov gc fc := by
  rw [intersect]
  exact List.mem_mergeSort

/-- `intersect` on a single coverage entry. -/
theorem intersect_singleton (e : String × FileCoverage)
    (gc : String → Option GitChange) (fc : String → List String) :
    intersect [e] gc fc = (intersectStep gc fc e).toList := by
  rw [intersect, intersectPre]
  cases h : intersectStep gc fc e with
  | none => simp [List.filterMap_cons, h]
  | some r => simp [List.filterMap_cons, h]

/-- Percentage evaluation at counts 3 and 2 (kept symbolic because Rat
arithmetic is proved, not kernel-evaluated). -/
theorem culprit_percentage_eval (r : BlameResult)
    (h1 : r.total_uncovered_lines = 3) (h2 : r.uncovered_in_changes = 2) :
    r.culprit_percentage = 200 / 3 := by
  rw [BlameResult.culprit_percentage, h1, h2]
  norm_num

/-- C6 (confirmed): for every file in the coverage map (exact-path keyed),
a FileBlameResult is emitted exactly when the intersection of its uncovered
set with the matching change record's lines (empty when no record exists) is
non-empty, and then `total_uncovered_count` is the uncovered cardinality and
`culprit_count` the intersection cardinality.  Concretely, uncovered
{2, 3, 4} against changed {2, 4} gives one result with counts 3 and 2 and
`culprit_percentage` 200/3 ≈ 66.7. -/
theorem intersect_emission :
    (∀ (cov : List (String × FileCoverage)) (gc : String → Option GitChange)
        (fc : String → List String) (fp : String) (f : FileCoverage),
      (cov.map Prod.fst).Nodup → (fp, f) ∈ cov →
      ((culpritOf gc fp f ≠ ∅ ↔ ∃ r ∈ intersect cov gc fc, r.file_path = fp) ∧
       ∀ r ∈ intersect cov gc fc, r.file_path = fp →
         r.total_uncovered_lines = f.get_uncovered_lines.card ∧
         r.uncovered_in_changes = (culpritOf gc fp f).card)) ∧
    ((intersect [("f", sampleCoverage234)] sampleChanges24 sampleContents).map
        (fun r => (r.file_path, r.total_uncovered_lines, r.uncovered_in_changes)) =
        [("f", 3, 2)] ∧
      (intersect [("f", sampleCoverage234)] sampleChanges24 sampleContents).map
        (fun r => r.culprit_percentage) = [200 / 3] ∧
      (667 / 10 : Rat) - 1 / 20 < 200 / 3 ∧ (200 / 3 : Rat) < 667 / 10 + 1 / 20) := by
  constructor
  · intro cov gc fc fp f hnd hmem
    constructor
    · constructor
      · intro hne2
        cases hgc : gc fp with
        | none =>
          rw [culpritOf, hgc] at hne2
          exact absurd rfl hne2
        | some change =>
          rw [culpritOf, hgc] at hne2
          refine ⟨_, (mem_intersect cov gc fc _).mpr
            ((mem_intersectPre cov gc fc _).mpr ⟨(fp, f), hmem,
              (intersectStep_some_iff gc fc fp f _).mpr
                ⟨change, hgc, hne2, rfl⟩⟩), rfl⟩
      · rintro ⟨r, hr, hfp2⟩
        rw [mem_intersect, mem_intersectPre] at hr
        obtain ⟨⟨e1, e2⟩, hecov, hstep⟩ := hr
        obtain ⟨change, hgc, hne2, rfl⟩ :=
          (intersectStep_some_iff gc fc e1 e2 _).mp hstep
        have he1 : e1 = fp := hfp2
        subst he1
        have he2 : e2 = f := key_unique hnd hecov hmem
        subst he2
        rw [culpritOf, hgc]
        exact hne2
    · intro r hr hfp2
      rw [mem_intersect, mem_intersectPre] at hr
      obtain ⟨⟨e1, e2⟩, hecov, hstep⟩ := hr
      obtain ⟨change, hgc, hne2, rfl⟩ :=
        (intersectStep_some_iff gc fc e1 e2 _).mp hstep
      have he1 : e1 = fp := hfp2
      subst he1
      have he2 : e2 = f := key_unique hnd hecov hmem
      subst he2
      rw [culpritOf, hgc]
      exact ⟨rfl, rfl⟩
  · have hstep : intersectStep sampleChanges24 sampleContents
          ("f", sampleCoverage234) = some
            { file_path := "f",
              total_uncovered_lines := sampleCoverage234.get_uncovered_lines.card,
              uncovered_in_changes := (sampleCoverage234.get_uncovered_lines ∩
                ({2, 4} : Finset Int)).card,
              blame_groups := createBlameGroups
                (sampleCoverage234.get_uncovered_lines ∩ ({2, 4} : Finset Int))
                (sampleContents "f") ⟨"f", {2, 4}, "a", "abc1234", "d", "m"⟩ "f" } := by
      refine (intersectStep_some_iff _ _ _ _ _).mpr
        ⟨⟨"f", {2, 4}, "a", "abc1234", "d", "m"⟩, ?_, by decide, rfl⟩
      rfl
    refine ⟨?_, ?_, by norm_num, by norm_num⟩
    · rw [intersect_singleton, hstep]
      decide
    · rw [intersect_singleton, hstep]
      simp only [Option.toList_some, List.map_cons, List.map_nil]
      exact congrArg₂ List.cons (culprit_percentage_eval _ (by decide) (by decide)) rfl

/-- `blameOrder` is transitive. -/
theorem blameOrder_trans : ∀ (a b c : BlameResult),
    blameOrder a b → blameOrder b c → blameOrder a c := by
  intro a b c hab hbc
  simp only [blameOrder, decide_eq_true_eq] at hab hbc ⊢
  omega

/-- `blameOrder` is total. -/
theorem blameOrder_total : ∀ (a b : BlameResult),
    blameOrder a b || blameOrder b a := by
  intro a b
  simp only [blameOrder, Bool.or_eq_true, decide_eq_true_eq]
  omega

/-- C7 (confirmed): the intersector's final list is sorted in descending
order of `uncovered_in_changes` (the culprit count, not the percentage), and
for each count value the results carrying it appear in exactly their
pre-sort discovery order (Python `sorted` and `List.mergeSort` are both
stable). -/
theorem result_order_stable (cov : List (String × FileCoverage))
    (gc : String → Option GitChange) (fc : String → List String) :
    (intersect cov gc fc).Pairwise
      (fun a b => b.uncovered_in_changes ≤ a.uncovered_in_changes) ∧
    ∀ (n : Nat),
      (intersect cov gc fc).filter (fun r => r.uncovered_in_changes == n) =
        (intersectPre cov gc fc).filter (fun r => r.uncovered_in_changes == n) := by
  constructor
  · have hs := List.sorted_mergeSort blameOrder_trans blameOrder_total
      (intersectPre cov gc fc)
    rw [intersect]
    exact hs.imp (fun h => by
      simpa only [blameOrder, decide_eq_true_eq] using h)
  · intro n
    have hpw : ((intersectPre cov gc fc).filter
        (fun r => r.uncovered_in_changes == n)).Pairwise
          (fun a b => blameOrder a b) := by
      apply List.pairwise_of_forall_mem_list
      intro a ha b hb
      have han : a.uncovered_in_changes = n :=
        by simpa using List.of_mem_filter ha
      have hbn : b.uncovered_in_changes = n :=
        by simpa using List.of_mem_filter hb
      simp [blameOrder, han, hbn]
    have hsub : List.Sublist ((intersectPre cov gc fc).filter
        (fun r => r.uncovered_in_changes == n)) (intersect cov gc fc) := by
      rw [intersect]
      exact List.sublist_mergeSort blameOrder_trans blameOrder_total hpw
        (List.filter_sublist _)
    have hsub2 : List.Sublist ((intersectPre cov gc fc).filter
        (fun r => r.uncovered_in_changes == n))
          ((intersect cov gc fc).filter (fun r => r.uncovered_in_changes == n)) := by
      have hself : ((intersectPre cov gc fc).filter
          (fun r => r.uncovered_in_changes == n)).filter
            (fun r => r.uncovered_in_changes == n) =
          (intersectPre cov gc fc).filter (fun r => r.uncovered_in_changes == n) :=
        List.filter_eq_self.mpr (fun a ha => (List.mem_filter.mp ha).2)
      have := hsub.filter (fun r => r.uncovered_in_changes == n)
      rwa [hself] at this
    have hlen : ((intersectPre cov gc fc).filter
        (fun r => r.uncovered_in_changes == n)).length =
          ((intersect cov gc fc).filter
            (fun r => r.uncovered_in_changes == n)).length := by
      have hperm : List.Perm (intersect cov gc fc) (intersectPre cov gc fc) := by
        rw [intersect]
        exact List.mergeSort_perm _ _
      exact (List.Perm.length_eq
        (hperm.filter (fun r => r.uncovered_in_changes == n))).symm
    exact (hsub2.eq_of_length hlen).symm

/-- A split always has at least one field. -/
theorem pySplitChar_ne_nil (sep : Char) : ∀ (cs : List Char),
    pySplitChar sep cs ≠ []
  | [] => by simp [pySplitChar]
  | c :: cs => by
    rw [pySplitChar]
    by_cases h : c = sep
    · simp [h]
    · rw [if_neg h]
      cases hs : pySplitChar sep cs with
      | nil => exact absurd hs (pySplitChar_ne_nil sep cs)
      | cons a b => simp

/-- Splitting an append whose left part holds no separator glues that part
onto the first field of the right part's split. -/
theorem pySplitChar_append (sep : Char) : ∀ (a cs h : List Char)
    (t : List (List Char)),
    (∀ x ∈ a, x ≠ sep) → pySplitChar sep cs = h :: t →
    pySplitChar sep (a ++ cs) = (a ++ h) :: t := by
  intro a
  induction a with
  | nil =>
    intro cs h t _ hs
    simpa using hs
  | cons c a2 ih =>
    intro cs h t hne hs
    have hc : c ≠ sep := hne c (List.mem_cons_self _ _)
    rw [List.cons_append, pySplitChar, if_neg hc]
    rw [ih cs h t (fun x hx => hne x (List.mem_cons_of_mem _ hx)) hs]
    rfl

/-- `joinSlash` of a cons. -/
theorem joinSlash_cons (a : List Char) : ∀ (r : List (List Char)), r ≠ [] →
    joinSlash (a :: r) = a ++ '/' :: joinSlash r := by
  intro r hr
  cases r with
  | nil => exact absurd rfl hr
  | cons x y => rfl

/-- Joining a split is the identity. -/
theorem joinSlash_pySplitChar : ∀ (cs : List Char),
    joinSlash (pySplitChar '/' cs) = cs
  | [] => rfl
  | c :: cs => by
    have ih := joinSlash_pySplitChar cs
    rw [pySplitChar]
    by_cases h : c = '/'
    · rw [if_pos h]
      rw [joinSlash_cons [] (pySplitChar '/' cs) (pySplitChar_ne_nil '/' cs)]
      rw [ih, h]
      rfl
    · rw [if_neg h]
      cases hs : pySplitChar '/' cs with
      | nil => exact absurd hs (pySplitChar_ne_nil '/' cs)
      | cons a b =>
        rw [hs] at ih
        show joinSlash ((c :: a) :: b) = c :: cs
        cases b with
        | nil =>
          show c :: a = c :: cs
          rw [← ih]
          rfl
        | cons x y =>
          rw [joinSlash_cons (c :: a) (x :: y) (by simp)]
          rw [joinSlash_cons a (x :: y) (by simp)] at ih
          rw [← ih]
          rfl

/-- The prefixed path never has a root in the POSIX model: it starts with
`C`. -/
theorem prefixed_not_absolute (fp : String) :
    pyPathIsAbsolute (workspacePrefix ++ fp) = false := by
  have hdata : (workspacePrefix ++ fp).toList =
      'C' :: (":\\workspace\\".toList ++ fp.toList) := by
    show (workspacePrefix ++ fp).data = 'C' :: (":\\workspace\\".data ++ fp.data)
    rw [String.data_append]
    rfl
  rw [pyPathIsAbsolute, hdata]
  rfl

/-- Normalizing the prefixed form of a plain relative path (every slash
field non-empty and not `.`) keeps it verbatim. -/
theorem posixNormalize_prefixed (fp : String)
    (hcomps : (pySplitChar '/' fp.toList).all
      (fun c => decide (c ≠ [] ∧ c ≠ ['.'])) = true) :
    posixNormalize (workspacePrefix ++ fp) =
      String.mk (workspacePrefix.toList ++ fp.toList) := by
  obtain ⟨h, t, hsplit⟩ : ∃ h t, pySplitChar '/' fp.toList = h :: t := by
    cases hs : pySplitChar '/' fp.toList with
    | nil => exact absurd hs (pySplitChar_ne_nil '/' fp.toList)
    | cons a b => exact ⟨a, b, rfl⟩
  have hdata : (workspacePrefix ++ fp).toList =
      workspacePrefix.toList ++ fp.toList := String.data_append _ _
  have hnosep : ∀ x ∈ workspacePrefix.toList, x ≠ '/' := by decide
  have hsplitfull : pySplitChar '/' ((workspacePrefix ++ fp).toList) =
      (workspacePrefix.toList ++ h) :: t := by
    rw [hdata]
    exact pySplitChar_append '/' workspacePrefix.toList fp.toList h t hnosep hsplit
  have hlenpre : workspacePrefix.toList.length = 13 := by decide
  have hhead_ne : workspacePrefix.toList ++ h ≠ [] := by
    intro hcon
    have := congrArg List.length hcon
    rw [List.length_append, hlenpre] at this
    simp at this
  have hhead_nd : workspacePrefix.toList ++ h ≠ ['.'] := by
    intro hcon
    have := congrArg List.length hcon
    rw [List.length_append, hlenpre] at this
    simp at this
    omega
  have hfilter : ((workspacePrefix.toList ++ h) :: t).filter
      (fun c => decide (c ≠ [] ∧ c ≠ ['.'])) =
      (workspacePrefix.toList ++ h) :: t := by
    rw [List.filter_eq_self]
    intro a ha
    rcases List.mem_cons.mp ha with rfl | hat
    · exact decide_eq_true ⟨hhead_ne, hhead_nd⟩
    · rw [hsplit, List.all_cons, Bool.and_eq_true] at hcomps
      exact List.all_eq_true.mp hcomps.2 a hat
  have hroot : (match (workspacePrefix ++ fp).toList with
      | '/' :: '/' :: '/' :: _ => ['/']
      | '/' :: '/' :: _ => ['/', '/']
      | '/' :: _ => ['/']
      | _ => ([] : List Char)) = [] := by
    rw [hdata]
    have : workspacePrefix.toList = 'C' :: ":\\workspace\\".toList := by decide
    rw [this]
    rfl
  have hjoin : joinSlash ((workspacePrefix.toList ++ h) :: t) =
      workspacePrefix.toList ++ fp.toList := by
    cases t with
    | nil =>
      show workspacePrefix.toList ++ h = workspacePrefix.toList ++ fp.toList
      have := joinSlash_pySplitChar fp.toList
      rw [hsplit] at this
      rw [show joinSlash [h] = h from rfl] at this
      rw [this]
    | cons x y =>
      rw [joinSlash_cons _ (x :: y) (by simp)]
      have := joinSlash_pySplitChar fp.toList
      rw [hsplit, joinSlash_cons h (x :: y) (by simp)] at this
      rw [List.append_assoc, this]
  have hne2 : workspacePrefix.toList ++ fp.toList ≠ [] := by
    intro hcon
    have := congrArg List.length hcon
    rw [List.length_append, hlenpre] at this
    simp at this
  have hbody : (workspacePrefix.toList ++ fp.toList).isEmpty = false := by
    cases hcon : workspacePrefix.toList ++ fp.toList with
    | nil => exact absurd hcon hne2
    | cons a b => rfl
  rw [posixNormalize]
  simp only [hsplitfull, hfilter, hroot, hjoin]
  rw [if_neg (by
    simp
    intro hcon
    exact absurd hcon (by decide))]
  simp

/-- C3 (corrected): the Coverage Loader does not pass relative paths through
unchanged — every filename not already carrying the hardcoded
`C:\workspace\` prefix is first prefixed with it, and in the POSIX path
model the prefixed path is never absolute, so the map key is the pathlib
normalization of the prefixed path with backslashes turned into forward
slashes.  For a plain relative path (slash fields non-empty, none `.`) the
key is exactly `C:/workspace/` glued in front of the path with its
backslashes converted; the spec's repo-root-relativization of absolute
paths is unreachable.  The counterexample shows `src/main.py` keyed as
`C:/workspace/src/main.py`. -/
theorem coverage_key_prefixed (root : String) (c : ClassElem) (fp : String)
    (hf : c.filename = some fp) (hne : fp ≠ "")
    (hpre : pyStartsWith fp workspacePrefix = false) :
    classKey root c = some (replaceBackslash (posixNormalize (workspacePrefix ++ fp))) ∧
    ((pySplitChar '/' fp.toList).all (fun comp => decide (comp ≠ [] ∧ comp ≠ ['.'])) = true →
      classKey root c = some ("C:/workspace/" ++ replaceBackslash fp)) := by
  have hkey : classKey root c =
      some (normalizePath root (workspacePrefix ++ fp)) := by
    simp only [classKey, hf]
    rw [if_neg hne]
    simp only [hpre, Bool.false_eq_true, if_false]
  have hnorm : normalizePath root (workspacePrefix ++ fp) =
      replaceBackslash (posixNormalize (workspacePrefix ++ fp)) := by
    rw [normalizePath, prefixed_not_absolute fp]
    rfl
  refine ⟨by rw [hkey, hnorm], ?_⟩
  intro hcomps
  rw [hkey, hnorm, posixNormalize_prefixed fp hcomps]
  refine congrArg some (String.ext ?_)
  show (workspacePrefix.toList ++ fp.toList).map
      (fun ch => if ch = '\\' then '/' else ch) =
    ("C:/workspace/" ++ replaceBackslash fp).data
  rw [String.data_append, List.map_append]
  refine congrArg₂ List.append (by decide) rfl

/-- C3, counterexample to the claim as stated: the relative report path
`src/main.py` is not a key of the result map; the entry lands under
`C:/workspace/src/main.py` instead. -/
theorem coverage_key_counterexample :
    coberturaParse "r" sampleDoc "src/main.py" = none ∧
    coberturaParse "r" sampleDoc "C:/workspace/src/main.py" =
      some ⟨"C:/workspace/src/main.py", [⟨2, LineStatus.uncovered, 0⟩]⟩ := by
  constructor
  · decide
  · decide

/-- C3, witness: the amended theorem applied to the sample report's class
element. -/
theorem coverage_key_prefixed_witness :
    classKey "r" ⟨some "src/main.py", [⟨some "2", some "0", none⟩]⟩ =
      some (replaceBackslash (posixNormalize (workspacePrefix ++ "src/main.py"))) ∧
    ((pySplitChar '/' ("src/main.py").toList).all
        (fun comp => decide (comp ≠ [] ∧ comp ≠ ['.'])) = true →
      classKey "r" ⟨some "src/main.py", [⟨some "2", some "0", none⟩]⟩ =
        some ("C:/workspace/" ++ replaceBackslash "src/main.py")) :=
  coverage_key_prefixed "r" ⟨some "src/main.py", [⟨some "2", some "0", none⟩]⟩
    "src/main.py" rfl (by decide) (by decide)

/-- A class element that does not write key `k` (wrong or missing key, or no
parsed line records) leaves the lookup at `k` unchanged. -/
theorem coberturaStep_preserve (root : String) (m : String → Option FileCoverage)
    (c : ClassElem) (k : String)
    (h : classKey root c = some k → parseClassLines c = []) :
    coberturaStep root m c k = m k := by
  rw [coberturaStep]
  cases hk : classKey root c with
  | none => rfl
  | some key =>
    by_cases hkey : key = k
    · subst hkey
      have hlines : parseClassLines c = [] := h hk
      simp [hlines]
    · by_cases hl : parseClassLines c = []
      · simp [hl]
      · simp [hl, Ne.symm hkey]

/-- A run of non-writers for key `k` leaves the lookup at `k` unchanged. -/
theorem cobertura_lookup_preserve (root : String) (k : String) :
    ∀ (l : List ClassElem) (m : String → Option FileCoverage),
    (∀ c ∈ l, classKey root c = some k → parseClassLines c = []) →
    l.foldl (coberturaStep root) m k = m k := by
  intro l
  induction l with
  | nil => intro m _; rfl
  | cons c t ih =>
    intro m hl
    rw [List.foldl_cons]
    rw [ih (coberturaStep root m c) (fun x hx => hl x (List.mem_cons_of_mem _ hx))]
    exact coberturaStep_preserve root m c k (hl c (List.mem_cons_self _ _))

/-- A class element with key `k` and at least one parsed record overwrites
the binding at `k` with exactly its own records. -/
theorem coberturaStep_write (root : String) (m : String → Option FileCoverage)
    (c : ClassElem) (k : String)
    (hk : classKey root c = some k) (hl : parseClassLines c ≠ []) :
    coberturaStep root m c k = some ⟨k, parseClassLines c⟩ := by
  rw [coberturaStep, hk]
  simp [hl]

/-- C10 (confirmed): when two class elements share the same normalized path
key, the later one with at least one parsed line record replaces the earlier
one's binding entirely (its records alone are kept); a later duplicate with
zero parsed records leaves the earlier binding in place. -/
theorem duplicate_class_last_wins (root : String) (pre mid post : List ClassElem)
    (c1 c2 : ClassElem) (k : String)
    (h1 : classKey root c1 = some k) (h2 : classKey root c2 = some k)
    (hl1 : parseClassLines c1 ≠ [])
    (hmid : ∀ c ∈ mid, classKey root c = some k → parseClassLines c = [])
    (hpost : ∀ c ∈ post, classKey root c = some k → parseClassLines c = []) :
    coberturaParse root (pre ++ c1 :: (mid ++ c2 :: post)) k =
      (if parseClassLines c2 ≠ [] then some ⟨k, parseClassLines c2⟩
       else some ⟨k, parseClassLines c1⟩) := by
  rw [coberturaParse, List.foldl_append, List.foldl_cons, List.foldl_append,
    List.foldl_cons]
  set m0 := pre.foldl (coberturaStep root) (fun _ => none) with hm0
  set m1 := coberturaStep root m0 c1 with hm1
  have hm1k : m1 k = some ⟨k, parseClassLines c1⟩ :=
    coberturaStep_write root m0 c1 k h1 hl1
  set m2 := mid.foldl (coberturaStep root) m1 with hm2
  have hm2k : m2 k = some ⟨k, parseClassLines c1⟩ := by
    rw [hm2, cobertura_lookup_preserve root k mid m1 hmid, hm1k]
  by_cases hl2 : parseClassLines c2 ≠ []
  · rw [if_pos hl2]
    rw [cobertura_lookup_preserve root k post _ hpost]
    exact coberturaStep_write root m2 c2 k h2 hl2
  · rw [if_neg hl2]
    rw [cobertura_lookup_preserve root k post _ hpost]
    rw [coberturaStep_preserve root m2 c2 k (fun _ => not_ne_iff.mp hl2)]
    exact hm2k

/-- C10, witness: the theorem applied to two concrete duplicate class
elements — the second's single record wins; and applied with an
empty-record duplicate — the first's record stays. -/
theorem duplicate_class_last_wins_witness :
    coberturaParse "r" ([] ++ sampleDupC1 :: ([] ++ sampleDupC2 :: []))
        "C:/workspace/a.py" =
      (if parseClassLines sampleDupC2 ≠ []
       then some ⟨"C:/workspace/a.py", parseClassLines sampleDupC2⟩
       else some ⟨"C:/workspace/a.py", parseClassLines sampleDupC1⟩) ∧
    coberturaParse "r" ([] ++ sampleDupC1 :: ([] ++ sampleDupEmpty :: []))
        "C:/workspace/a.py" =
      (if parseClassLines sampleDupEmpty ≠ []
       then some ⟨"C:/workspace/a.py", parseClassLines sampleDupEmpty⟩
       else some ⟨"C:/workspace/a.py", parseClassLines sampleDupC1⟩) :=
  ⟨duplicate_class_last_wins "r" [] [] [] sampleDupC1 sampleDupC2
      "C:/workspace/a.py" (by decide) (by decide) (by decide)
      (by intro c hc; cases hc) (by intro c hc; cases hc),
    duplicate_class_last_wins "r" [] [] [] sampleDupC1 sampleDupEmpty
      "C:/workspace/a.py" (by decide) (by decide) (by decide)
      (by intro c hc; cases hc) (by intro c hc; cases hc)⟩

end BlameTracker
